import Mathlib

/-!
Verification of the Cascade memory/safety subsystem
(`cascade_core.py`, `cascade_memory.py`, `cascade_safety.py`).

The development shallowly embeds the Python code: JSON values become an
inductive type, files become finite maps held in explicit state records,
and each Python method becomes a pure Lean function on those states.
Timestamps and fresh ids, which the Python code obtains from
`datetime.utcnow()` and `uuid.uuid4()`, are passed in as parameters.
-/

namespace Cascade

/-- JSON values as produced by `json.load` / consumed by `json.dump`.
Numbers are restricted to integers (the records the store handles use
integer numbers only). Objects are association lists in insertion
order, mirroring Python `dict` iteration order. -/
inductive JValue : Type where
  | null : JValue
  | bool : Bool → JValue
  | num : Int → JValue
  | str : String → JValue
  | arr : List JValue → JValue
  | obj : List (String × JValue) → JValue
  deriving Repr

/-- Python's `==` between a JSON value and a string: values of other
types never equal a string. Used where the code compares a loaded
field against a computed digest. -/
def pyEqStr (v : JValue) (s : String) : Bool :=
  match v with
  | .str t => t = s
  | _ => false

/-- Lowercase hex digit for a value < 16. -/
def hexDigit (n : Nat) : Char :=
  if n < 10 then Char.ofNat (48 + n) else Char.ofNat (87 + n)

/-- Four-digit lowercase hex rendering, as in Python's `\uXXXX` escapes. -/
def hex4 (n : Nat) : String :=
  String.mk [hexDigit (n / 4096 % 16), hexDigit (n / 256 % 16),
             hexDigit (n / 16 % 16), hexDigit (n % 16)]

/-- The `\uXXXX` escape (with surrogate pair for astral code points),
as emitted by `json.dumps` with `ensure_ascii=True` (the default). -/
def uEscape (n : Nat) : String :=
  if n < 65536 then "\\u" ++ hex4 n
  else
    let m := n - 65536
    "\\u" ++ hex4 (55296 + m / 1024) ++ "\\u" ++ hex4 (56320 + m % 1024)

/-- Escape one character of a JSON string the way `json.dumps` does:
`"` and `\` get backslash escapes, the named control escapes are used
for \b \t \n \f \r, and every other character outside 0x20–0x7e is
`\uXXXX`-escaped. -/
def escapeChar (c : Char) : String :=
  if c = '"' then "\\\""
  else if c = '\\' then "\\\\"
  else if c.toNat = 8 then "\\b"
  else if c.toNat = 9 then "\\t"
  else if c.toNat = 10 then "\\n"
  else if c.toNat = 12 then "\\f"
  else if c.toNat = 13 then "\\r"
  else if c.toNat < 32 ∨ c.toNat > 126 then uEscape c.toNat
  else String.singleton c

/-- A JSON string literal: quotes around the escaped characters. -/
def quoteStr (s : String) : String :=
  "\"" ++ String.join (s.toList.map escapeChar) ++ "\""

/-- Decimal rendering of an integer, as `json.dumps` prints Python ints. -/
def intRepr (i : Int) : String :=
  if i < 0 then "-" ++ Nat.repr (-i).toNat else Nat.repr i.toNat

/-- Python's `<` on strings, on the character lists: lexicographic
comparison of code points. -/
def strLtb : List Char → List Char → Bool
  | _, [] => false
  | [], _ :: _ => true
  | a :: as, b :: bs =>
    if a.toNat < b.toNat then true
    else if b.toNat < a.toNat then false
    else strLtb as bs

/-- Python's `<` on strings. -/
def strLt (a b : String) : Bool := strLtb a.toList b.toList

/-- Python's `<=` on strings (the negation of the reversed `<`, as in
any total order). -/
def strLe (a b : String) : Bool := !strLt b a

/-- Whether `pre` is an initial segment of `s` (`str.startswith`). -/
def strStarts : List Char → List Char → Bool
  | _, [] => true
  | [], _ :: _ => false
  | c :: cs, d :: ds => c == d && strStarts cs ds

/-- `str.endswith suf` via the reversed character lists. -/
def strEnds (s suf : String) : Bool := strStarts s.toList.reverse suf.toList.reverse

/-- Comma-space separated concatenation (Python's default item separator). -/
def joinComma : List String → String
  | [] => ""
  | [s] => s
  | s :: rest => s ++ ", " ++ joinComma rest

/-- Sorts object entries by key, the effect of `sort_keys=True`.
The comparison looks only at the key. -/
def sortPairs (kvs : List (String × String)) : List (String × String) :=
  kvs.insertionSort (fun p q => strLe p.1 q.1 = true)

/-- Renders already-serialized object entries as `"key": value`. -/
def renderPair (p : String × String) : String :=
  quoteStr p.1 ++ ": " ++ p.2

mutual
/-- Models Python `json.dumps(v, sort_keys=True)` (default separators,
`ensure_ascii=True`). Object entries are serialized and then sorted by
key; since the sort compares keys only, this renders the same text as
sorting the entries first. -/
def dumps : JValue → String
  | .null => "null"
  | .bool true => "true"
  | .bool false => "false"
  | .num i => intRepr i
  | .str s => quoteStr s
  | .arr xs => "[" ++ joinComma (dumpsList xs) ++ "]"
  | .obj kvs =>
      "\x7b" ++ joinComma ((sortPairs (dumpsPairs kvs)).map renderPair) ++ "\x7d"

/-- Serializes each array element. -/
def dumpsList : List JValue → List String
  | [] => []
  | v :: rest => dumps v :: dumpsList rest

/-- Serializes each object entry's value, keeping its key. -/
def dumpsPairs : List (String × JValue) → List (String × String)
  | [] => []
  | (k, v) :: rest => (k, dumps v) :: dumpsPairs rest
end

/-! ### SHA-256 (`hashlib.sha256`), over byte lists modeled as `Nat`s. -/

/-- 2^32, the word modulus of SHA-256. -/
def w32 : Nat := 4294967296

/-- Right rotation of a 32-bit word. -/
def rotr (n w : Nat) : Nat := ((w >>> n) ||| (w <<< (32 - n))) % w32

/-- Bitwise complement within 32 bits. -/
def notW (w : Nat) : Nat := 4294967295 - w

/-- SHA-256 round constants (fractional parts of cube roots of the
first 64 primes). -/
def sha256K : List Nat :=
  [1116352408, 1899447441, 3049323471, 3921009573, 961987163, 1508970993,
   2453635748, 2870763221, 3624381080, 310598401, 607225278, 1426881987,
   1925078388, 2162078206, 2614888103, 3248222580, 3835390401, 4022224774,
   264347078, 604807628, 770255983, 1249150122, 1555081692, 1996064986,
   2554220882, 2821834349, 2952996808, 3210313671, 3336571891, 3584528711,
   113926993, 338241895, 666307205, 773529912, 1294757372, 1396182291,
   1695183700, 1986661051, 2177026350, 2456956037, 2730485921, 2820302411,
   3259730800, 3345764771, 3516065817, 3600352804, 4094571909, 275423344,
   430227734, 506948616, 659060556, 883997877, 958139571, 1322822218,
   1537002063, 1747873779, 1955562222, 2024104815, 2227730452, 2361852424,
   2428436474, 2756734187, 3204031479, 3329325298]

/-- Big-endian 8-byte rendering of the message bit length. -/
def be64 (n : Nat) : List Nat :=
  [n >>> 56 % 256, n >>> 48 % 256, n >>> 40 % 256, n >>> 32 % 256,
   n >>> 24 % 256, n >>> 16 % 256, n >>> 8 % 256, n % 256]

/-- SHA-256 padding: a 0x80 byte, zeros to 56 mod 64, then the bit
length in big-endian. -/
def padMessage (msg : List Nat) : List Nat :=
  msg ++ [128] ++ List.replicate ((119 - msg.length % 64) % 64) 0
      ++ be64 (8 * msg.length)

/-- Splits a byte list into 64-byte chunks; the fuel argument bounds
the number of chunks (the list's length suffices). -/
def chunksAux : Nat → List Nat → List (List Nat)
  | 0, _ => []
  | _, [] => []
  | fuel + 1, b :: rest => (b :: rest).take 64 :: chunksAux fuel ((b :: rest).drop 64)

/-- Splits the padded message into 64-byte chunks. -/
def chunks64 (bs : List Nat) : List (List Nat) := chunksAux bs.length bs

/-- Packs four bytes into one big-endian 32-bit word. -/
def word4 : List Nat → Nat
  | b0 :: b1 :: b2 :: b3 :: _ => (((b0 <<< 8 ||| b1) <<< 8 ||| b2) <<< 8) ||| b3
  | _ => 0

/-- The 16 initial schedule words of a chunk. -/
def chunkWords (chunk : List Nat) : Array Nat :=
  ((List.range 16).map (fun i => word4 (chunk.drop (4 * i)))).toArray

/-- σ0 of the message schedule. -/
def smallSigma0 (x : Nat) : Nat := rotr 7 x ^^^ rotr 18 x ^^^ (x >>> 3)

/-- σ1 of the message schedule. -/
def smallSigma1 (x : Nat) : Nat := rotr 17 x ^^^ rotr 19 x ^^^ (x >>> 10)

/-- Extends 16 schedule words to 64. -/
def msgSchedule (ws : Array Nat) : Array Nat :=
  (List.range 48).foldl
    (fun w i =>
      w.push ((w.getD i 0 + smallSigma0 (w.getD (i + 1) 0)
               + w.getD (i + 9) 0 + smallSigma1 (w.getD (i + 14) 0)) % w32))
    ws

/-- The eight working registers of the compression function. -/
structure Regs : Type where
  a : Nat
  b : Nat
  c : Nat
  d : Nat
  e : Nat
  f : Nat
  g : Nat
  h : Nat
  deriving Repr

/-- One round of the SHA-256 compression function. -/
def sha256Round (r : Regs) (ki wi : Nat) : Regs :=
  let s1 := rotr 6 r.e ^^^ rotr 11 r.e ^^^ rotr 25 r.e
  let ch := (r.e &&& r.f) ^^^ (notW r.e &&& r.g)
  let t1 := (r.h + s1 + ch + ki + wi) % w32
  let s0 := rotr 2 r.a ^^^ rotr 13 r.a ^^^ rotr 22 r.a
  let maj := (r.a &&& r.b) ^^^ (r.a &&& r.c) ^^^ (r.b &&& r.c)
  let t2 := (s0 + maj) % w32
  ⟨(t1 + t2) % w32, r.a, r.b, r.c, (r.d + t1) % w32, r.e, r.f, r.g⟩

/-- Processes one 64-byte chunk, updating the eight hash words. -/
def processChunk (hs : Regs) (chunk : List Nat) : Regs :=
  let w := msgSchedule (chunkWords chunk)
  let r := (List.range 64).foldl
    (fun r i => sha256Round r (sha256K.getD i 0) (w.getD i 0)) hs
  ⟨(hs.a + r.a) % w32, (hs.b + r.b) % w32, (hs.c + r.c) % w32,
   (hs.d + r.d) % w32, (hs.e + r.e) % w32, (hs.f + r.f) % w32,
   (hs.g + r.g) % w32, (hs.h + r.h) % w32⟩

/-- Initial hash values (fractional parts of square roots of the first
eight primes). -/
def sha256Init : Regs :=
  ⟨1779033703, 3144134277, 1013904242, 2773480762,
   1359893119, 2600822924, 528734635, 1541459225⟩

/-- Eight-digit lowercase hex rendering of a 32-bit word. -/
def hex8 (n : Nat) : String := hex4 (n / 65536) ++ hex4 (n % 65536)

/-- SHA-256 of a byte list, as a lowercase hex digest
(`hashlib.sha256(...).hexdigest()`). -/
def sha256hex (msg : List Nat) : String :=
  let r := (chunks64 (padMessage msg)).foldl processChunk sha256Init
  hex8 r.a ++ hex8 r.b ++ hex8 r.c ++ hex8 r.d
    ++ hex8 r.e ++ hex8 r.f ++ hex8 r.g ++ hex8 r.h

/-- UTF-8 bytes of an ASCII string (`str.encode()`; `dumps` output is
pure ASCII because of `ensure_ascii`). -/
def encodeAscii (s : String) : List Nat := s.toList.map Char.toNat

/-- `CascadeCore._hash_dict`: deterministic hash of a structured value,
`hashlib.sha256(json.dumps(data, sort_keys=True).encode()).hexdigest()`. -/
def hashDict (data : JValue) : String := sha256hex (encodeAscii (dumps data))

/-! ### `CascadeCore` (`cascade_core.py`): save/load with backup and
hash validation. The `.cascade/data` directory becomes a map from
memory name to the parsed record file; `.cascade/backups/<name>`
becomes a listing of (file name, contents) pairs. -/

/-- Field access `v[key]` on a parsed JSON object; `none` models the
`KeyError`/`TypeError` that a missing key or non-object raises. -/
def getField (v : JValue) (key : String) : Option JValue :=
  match v with
  | .obj kvs => (kvs.find? (fun p => p.1 == key)).map Prod.snd
  | _ => none

/-- State of a `CascadeCore` instance's on-disk tree. -/
structure CoreState : Type where
  data : String → Option JValue
  backups : String → List (String × JValue)

/-- The backup files considered by `_quick_backup`/`_restore_backup`:
`sorted([f for f in os.listdir(backup_dir) if f.endswith('.json')])`,
kept with their contents (names in one directory are distinct, so
sorting the pairs by name is the listing's sort). -/
def sortedJsonBackups (listing : List (String × JValue)) : List (String × JValue) :=
  (listing.filter (fun p => strEnds p.1 ".json")).insertionSort
    (fun p q => strLe p.1 q.1 = true)

/-- `CascadeCore._restore_backup`: copies the most recent backup over
the live file; `false` when the backup directory is missing or empty. -/
def restoreBackup (st : CoreState) (name : String) : CoreState × Bool :=
  match (sortedJsonBackups (st.backups name)).getLast? with
  | none => (st, false)
  | some latest =>
      ({ st with data := fun n => if n = name then some latest.2 else st.data n }, true)

/-- `CascadeCore._quick_backup`: if the live file exists, copy it into
the backup directory under `<timestamp>.json`, then delete all but the
last 3 `.json` backups (sorted by name). -/
def quickBackup (st : CoreState) (name ts : String) : CoreState :=
  match st.data name with
  | none => st
  | some file =>
      let fname := ts ++ ".json"
      let afterCopy := (fname, file) :: (st.backups name).filter (fun p => p.1 ≠ fname)
      let sorted := sortedJsonBackups afterCopy
      let removed := (sorted.map Prod.fst).take (sorted.length - 3)
      { st with backups := fun n =>
          if n = name then afterCopy.filter (fun p => ¬ removed.contains p.1)
          else st.backups n }

/-- `CascadeCore.save_memory`: quick backup of the previous version,
then write `{content, updated_at, hash}`; returns `True`. -/
def saveMemory (st : CoreState) (name : String) (content : JValue) (ts now : String) :
    CoreState × Bool :=
  let st1 := quickBackup st name ts
  let file := JValue.obj
    [("content", content), ("updated_at", .str now), ("hash", .str (hashDict content))]
  ({ st1 with data := fun n => if n = name then some file else st1.data n }, true)

/-- `CascadeCore.load_memory`: reads the file, recomputes the content
hash and compares it with the recorded `hash` field; on mismatch it
calls `_restore_backup` (ignoring the result) and calls itself again.
The fuel argument models Python's recursion limit: at fuel 0 the
recursive call raises `RecursionError`, which the `except` clause
turns into `None`. A missing file or missing field also yields `None`.
The returned `Nat` counts the `_restore_backup` calls made. -/
def loadMemory : Nat → CoreState → String → CoreState × Option JValue × Nat
  | 0, st, _ => (st, none, 0)
  | fuel + 1, st, name =>
    match st.data name with
    | none => (st, none, 0)
    | some file =>
      match getField file "content", getField file "hash" with
      | some content, some h =>
        if pyEqStr h (hashDict content) then (st, some content, 0)
        else
          let st1 := (restoreBackup st name).1
          let (st2, r, k) := loadMemory fuel st1 name
          (st2, r, k + 1)
      | _, _ => (st, none, 0)

/-- A record file whose recorded `hash` field does not match the
recomputed hash of its `content` field. -/
def isCorrupt (file : JValue) : Prop :=
  ∃ content h, getField file "content" = some content ∧
    getField file "hash" = some h ∧ pyEqStr h (hashDict content) = false

/-! ### `CascadeMemory` (`cascade_memory.py`): the versioned record
store. Records are well-shaped by construction (the JSON-schema
validation of `_validate_memory` accepts every value of `Memory`). -/

/-- The `critique` sub-object of a record. -/
structure Critique : Type where
  strengths : List String
  weaknesses : List String
  improvements : List String
  deriving DecidableEq, Repr

/-- The default critique `{"strengths": [], "weaknesses": [], "improvements": []}`. -/
def defaultCritique : Critique := ⟨[], [], []⟩

/-- A record file (`data/memories/<id>.json`). `expires_at` is `none`
when the key is absent (`create_memory` never writes it). -/
structure Memory : Type where
  id : String
  type : String
  content : JValue
  created_at : String
  updated_at : String
  version : Nat
  critique : Critique
  expires_at : Option String
  deriving Repr

/-- An entry of `index["memories"]`. -/
structure IndexEntry : Type where
  path : String
  type : String
  version : Nat
  last_updated : String
  deriving DecidableEq, Repr

/-- State of a `CascadeMemory` instance: the index file (an ordered
association list, mirroring dict insertion order, plus
`stats.last_cleanup`) and the record files keyed by path. -/
structure MemState : Type where
  memories : List (String × IndexEntry)
  lastCleanup : Option String
  files : String → Option Memory

/-- Dict lookup `index["memories"].get(id)`. -/
def lookupIndex (l : List (String × IndexEntry)) (id : String) : Option IndexEntry :=
  (l.find? (fun p => p.1 == id)).map Prod.snd

/-- Dict assignment `index["memories"][id] = e`: replaces in place or
appends. -/
def setIndex (l : List (String × IndexEntry)) (id : String) (e : IndexEntry) :
    List (String × IndexEntry) :=
  if (l.find? (fun p => p.1 == id)).isSome then
    l.map (fun p => if p.1 == id then (id, e) else p)
  else l ++ [(id, e)]

/-- Dict deletion `del index["memories"][id]`. -/
def removeIndex (l : List (String × IndexEntry)) (id : String) :
    List (String × IndexEntry) :=
  l.filter (fun p => p.1 != id)

/-- The failures the store surfaces: `ValueError("Memory ... not
found")`, and an uncaught I/O error (a record file missing at the path
the index names). -/
inductive Err : Type where
  | notFound (id : String) : Err
  | ioError : Err
  deriving DecidableEq, Repr

/-- `CascadeMemory.create_memory`: builds a version-1 record with the
given (or default) critique, writes it under
`data/memories/<id>.json`, and registers it in the index. The fresh
uuid and the `utcnow` timestamp are parameters. -/
def createMemory (st : MemState) (memory_type : String) (content : JValue)
    (critique : Option Critique) (freshId now : String) : MemState × String :=
  let memory : Memory :=
    { id := freshId, type := memory_type, content := content, created_at := now,
      updated_at := now, version := 1, critique := critique.getD defaultCritique,
      expires_at := none }
  let path := "data/memories/" ++ freshId ++ ".json"
  let entry : IndexEntry :=
    { path := path, type := memory_type, version := 1, last_updated := now }
  ({ st with memories := setIndex st.memories freshId entry,
             files := fun p => if p = path then some memory else st.files p }, freshId)

/-- `CascadeMemory.update_memory`: raises not-found if the id is
absent from the index; otherwise loads the record at the indexed path,
replaces `content`, refreshes `updated_at`, bumps `version` by one,
replaces `critique` only when one is given, writes the record back and
updates the index entry's `version`/`last_updated`. -/
def updateMemory (st : MemState) (memory_id : String) (content : JValue)
    (critique : Option Critique) (now : String) : MemState × Except Err Unit :=
  match lookupIndex st.memories memory_id with
  | none => (st, .error (.notFound memory_id))
  | some entry =>
    match st.files entry.path with
    | none => (st, .error .ioError)
    | some memory =>
      let memory' : Memory :=
        { memory with content := content, updated_at := now,
                      version := memory.version + 1,
                      critique := match critique with
                                  | some c => c
                                  | none => memory.critique }
      let entry' : IndexEntry :=
        { entry with version := memory'.version, last_updated := now }
      ({ st with files := fun p => if p = entry.path then some memory' else st.files p,
                 memories := setIndex st.memories memory_id entry' }, .ok ())

/-- `CascadeMemory.get_memory`: not-found if the id is absent from the
index, otherwise the record file contents as-is. -/
def getMemory (st : MemState) (memory_id : String) : Except Err Memory :=
  match lookupIndex st.memories memory_id with
  | none => .error (.notFound memory_id)
  | some entry =>
    match st.files entry.path with
    | none => .error .ioError
    | some m => .ok m

/-- The expiry test of `cleanup_expired`:
`"expires_at" in memory and memory["expires_at"] < now` — a strict
string comparison of ISO timestamps. -/
def expiredP (m : Memory) (now : String) : Bool :=
  match m.expires_at with
  | some e => strLt e now
  | none => false

/-- The loop of `cleanup_expired` over a snapshot of the index keys.
`get_memory` inside the loop re-reads the index file from disk, which
is only written after the loop, so lookups go through `orig`; record
files, in contrast, are removed as the loop goes. The final `Bool` is
false when an iteration raised (dangling index entry), in which case
files already removed stay removed and the in-memory index is lost. -/
def cleanupLoop (orig : List (String × IndexEntry)) (now : String) :
    List String → (String → Option Memory) → List (String × IndexEntry) → Nat →
    (String → Option Memory) × List (String × IndexEntry) × Nat × Bool
  | [], files, mem, n => (files, mem, n, true)
  | id :: rest, files, mem, n =>
    match lookupIndex orig id with
    | none => (files, mem, n, false)
    | some entry =>
      match files entry.path with
      | none => (files, mem, n, false)
      | some m =>
        if expiredP m now then
          cleanupLoop orig now rest (fun p => if p = entry.path then none else files p)
            (removeIndex mem id) (n + 1)
        else cleanupLoop orig now rest files mem n

/-- `CascadeMemory.cleanup_expired`: scans all records, removes file
and index entry of each record whose `expires_at` is strictly before
`now`, stamps `stats.last_cleanup` and writes the index only when at
least one record was removed, and returns the count. -/
def cleanupExpired (st : MemState) (now : String) : MemState × Except Err Nat :=
  let r := cleanupLoop st.memories now (st.memories.map Prod.fst) st.files st.memories 0
  match r with
  | (files', mem', n, true) =>
    if n > 0 then
      ({ memories := mem', lastCleanup := some now, files := files' }, .ok n)
    else ({ st with files := files' }, .ok n)
  | (files', _, _, false) => ({ st with files := files' }, .error .ioError)

/-! ### `CascadeSafety` (`cascade_safety.py`): tamper detection and
backup pruning. Files carry their bytes and an opaque modification
time (only ever compared for equality, so its numeric type is
immaterial). Safety records are keyed by `os.path.basename(path)`. -/

/-- A file on disk: its bytes and its `st_mtime`. -/
structure FileInfo : Type where
  bytes : List Nat
  mtime : Int
  deriving DecidableEq, Repr

/-- A safety record `{path, hash, mtime, recorded_at}`. -/
structure SafetyRecord : Type where
  path : String
  hash : String
  mtime : Int
  recorded_at : String
  deriving DecidableEq, Repr

/-- State of a `CascadeSafety` instance: the tracked filesystem and
the safety-record directory (keyed by basename). -/
structure SafetyState : Type where
  fs : String → Option FileInfo
  safety : String → Option SafetyRecord

/-- `os.path.basename`: the part after the last `/`. -/
def basename (p : String) : String :=
  String.mk ((p.toList.reverse.takeWhile (fun c => c ≠ '/')).reverse)

/-- `CascadeSafety._calculate_hash`: empty string for a missing file,
SHA-256 hex digest of the bytes otherwise. -/
def calculateHash (st : SafetyState) (p : String) : String :=
  match st.fs p with
  | none => ""
  | some fi => sha256hex fi.bytes

/-- `CascadeSafety.safe_to_modify`: safe when the file does not exist
or no safety record exists; unsafe when the recorded hash differs from
the current hash, or (hash equal) the recorded mtime differs. -/
def safeToModify (st : SafetyState) (p : String) : Bool × String :=
  match st.fs p with
  | none => (true, "File does not exist")
  | some fi =>
    match st.safety (basename p) with
    | some record =>
      if record.hash ≠ sha256hex fi.bytes then
        (false, "File has been modified outside of Cascade")
      else if record.mtime ≠ fi.mtime then (false, "File timestamp has changed")
      else (true, "Safe to modify")
    | none => (true, "Safe to modify")

/-- `CascadeSafety.record_file_state`: no-op for a missing file;
otherwise writes the current hash and mtime into the safety record for
the file's basename. -/
def recordFileState (st : SafetyState) (p now : String) : SafetyState :=
  match st.fs p with
  | none => st
  | some fi =>
    { st with safety := fun b =>
        if b = basename p then some ⟨p, sha256hex fi.bytes, fi.mtime, now⟩
        else st.safety b }

/-- The test `os.path.isdir(item_path) and item.startswith("cascade_backup_")`
on one entry of the backup-directory listing. -/
def isBackupDir (p : String × Bool) : Bool :=
  p.2 && strStarts p.1.toList "cascade_backup_".toList

/-- The `backups` list collected by `cleanup_old_backups`. -/
def backupNames (listing : List (String × Bool)) : List String :=
  (listing.filter isBackupDir).map Prod.fst

/-- `backups.sort(reverse=True)`: names sorted newest first (the
timestamp-bearing names order chronologically). -/
def sortedBackups (listing : List (String × Bool)) : List String :=
  (backupNames listing).insertionSort (fun a b => strLe b a = true)

/-- `CascadeSafety.cleanup_old_backups`: among the listing of the
backup directory, the `cascade_backup_*` directories are sorted
newest-first and all but the first `keep_last` are deleted; each
deletion failure is caught and logged, leaving that directory behind
but continuing with the rest. The listing pairs each name with its
is-directory flag; `removeFails` tells which `shutil.rmtree` calls
fail. -/
def cleanupOldBackups (listing : List (String × Bool)) (keepLast : Nat)
    (removeFails : String → Bool) : List (String × Bool) :=
  let toDelete := (sortedBackups listing).drop keepLast
  listing.filter (fun p => !(toDelete.contains p.1 && !removeFails p.1))

/-! ### Canonical forms for structured values

`canon` recursively sorts every mapping's entries by key, so two
values are `canon`-equal exactly when they are the same up to the
insertion order of mapping keys. -/

mutual
/-- Recursively sorts object entries by key. -/
def canon : JValue → JValue
  | .null => .null
  | .bool b => .bool b
  | .num i => .num i
  | .str s => .str s
  | .arr xs => .arr (canonList xs)
  | .obj kvs => .obj ((canonPairs kvs).insertionSort (fun p q => strLe p.1 q.1 = true))

/-- `canon` on each array element. -/
def canonList : List JValue → List JValue
  | [] => []
  | v :: rest => canon v :: canonList rest

/-- `canon` on each object entry's value. -/
def canonPairs : List (String × JValue) → List (String × JValue)
  | [] => []
  | (k, v) :: rest => (k, canon v) :: canonPairs rest
end

theorem strLtb_asymm : ∀ (a b : List Char), strLtb a b = true → strLtb b a = false := by
  intro a
  induction a with
  | nil =>
    intro b h
    cases b with
    | nil => simp [strLtb] at h
    | cons y ys => rfl
  | cons x xs ih =>
    intro b h
    cases b with
    | nil => simp [strLtb] at h
    | cons y ys =>
      simp only [strLtb] at h ⊢
      split_ifs at h ⊢ <;> first | rfl | omega | exact ih ys h

theorem strLtb_or : ∀ (u v w : List Char), strLtb u w = true →
    strLtb u v = true ∨ strLtb v w = true := by
  intro u
  induction u with
  | nil =>
    intro v w h
    cases w with
    | nil => simp [strLtb] at h
    | cons y ys =>
      cases v with
      | nil => exact Or.inr rfl
      | cons z zs => exact Or.inl rfl
  | cons x xs ih =>
    intro v w h
    cases w with
    | nil => simp [strLtb] at h
    | cons y ys =>
      cases v with
      | nil => exact Or.inr rfl
      | cons z zs =>
        simp only [strLtb] at h ⊢
        split_ifs at h ⊢ <;>
          first | (left; rfl) | (right; rfl) | omega
                | exact (ih zs ys h).imp (fun hh => hh) (fun hh => hh)

theorem strLe_total (a b : String) : strLe a b = true ∨ strLe b a = true := by
  simp only [strLe, strLt, Bool.not_eq_true']
  cases h : strLtb b.toList a.toList with
  | false => exact Or.inl rfl
  | true => exact Or.inr (strLtb_asymm _ _ h)

theorem strLe_trans (a b c : String) (h1 : strLe a b = true) (h2 : strLe b c = true) :
    strLe a c = true := by
  simp only [strLe, strLt, Bool.not_eq_true'] at h1 h2 ⊢
  cases h : strLtb c.toList a.toList with
  | false => rfl
  | true =>
    rcases strLtb_or _ b.toList _ h with hcb | hba
    · rw [hcb] at h2; exact absurd h2 (by simp)
    · rw [hba] at h1; exact absurd h1 (by simp)

instance : IsTotal (String × String) (fun p q => strLe p.1 q.1 = true) :=
  ⟨fun a b => strLe_total a.1 b.1⟩

instance : IsTrans (String × String) (fun p q => strLe p.1 q.1 = true) :=
  ⟨fun _ _ _ h1 h2 => strLe_trans _ _ _ h1 h2⟩

theorem dumpsPairs_eq_map (l : List (String × JValue)) :
    dumpsPairs l = l.map (fun p => (p.1, dumps p.2)) := by
  induction l with
  | nil => rfl
  | cons p rest ih => cases p; rw [dumpsPairs, List.map, ih]

theorem canonPairs_eq_map (l : List (String × JValue)) :
    canonPairs l = l.map (fun p => (p.1, canon p.2)) := by
  induction l with
  | nil => rfl
  | cons p rest ih => cases p; rw [canonPairs, List.map, ih]

/-- Serializing entry values commutes with sorting by key, because
the sort inspects only keys. -/
theorem dumpsPairs_insertionSort (l : List (String × JValue)) :
    dumpsPairs (l.insertionSort (fun p q => strLe p.1 q.1 = true)) =
      sortPairs (dumpsPairs l) := by
  rw [dumpsPairs_eq_map, dumpsPairs_eq_map, sortPairs]
  exact List.map_insertionSort (fun p q => strLe p.1 q.1 = true)
    (fun p q => strLe p.1 q.1 = true)
    (fun p => (p.1, dumps p.2)) l (fun _ _ _ _ => Iff.rfl)

theorem sortPairs_idem (l : List (String × String)) :
    sortPairs (sortPairs l) = sortPairs l :=
  List.Sorted.insertionSort_eq (List.sorted_insertionSort _ l)

mutual
/-- Key-sorting a value does not change its serialization: `dumps`
already renders mappings in sorted key order. -/
theorem dumps_canon : (v : JValue) → dumps (canon v) = dumps v
  | .null => rfl
  | .bool b => by cases b <;> rfl
  | .num _ => rfl
  | .str _ => rfl
  | .arr xs => by rw [canon, dumps, dumps, dumpsList_canonList xs]
  | .obj kvs => by
      rw [canon, dumps, dumps, dumpsPairs_insertionSort,
        dumpsPairs_canonPairs kvs, sortPairs_idem]

/-- `dumps_canon` on each array element. -/
theorem dumpsList_canonList : (l : List JValue) →
    dumpsList (canonList l) = dumpsList l
  | [] => rfl
  | v :: rest => by
      rw [canonList, dumpsList, dumpsList, dumps_canon v, dumpsList_canonList rest]

/-- `dumps_canon` on each object entry's value. -/
theorem dumpsPairs_canonPairs : (l : List (String × JValue)) →
    dumpsPairs (canonPairs l) = dumpsPairs l
  | [] => rfl
  | (k, v) :: rest => by
      rw [canonPairs, dumpsPairs, dumpsPairs, dumps_canon v,
        dumpsPairs_canonPairs rest]
end

/-! ## Claim theorems -/

/-- C7: `_hash_dict` is a pure function of its argument's canonical
form: any two structured values that are the same mapping up to key
insertion order (i.e. with equal recursively-key-sorted forms) receive
identical digests, because the digest is computed over
`json.dumps(·, sort_keys=True)`, a canonical serialization that sorts
mapping keys. Determinism across calls is inherent: `hashDict` is a
Lean function, and the source computes the digest from its argument
alone with no other state. -/
theorem hashDict_canonical (a b : JValue) (h : canon a = canon b) :
    hashDict a = hashDict b := by
  rw [hashDict, hashDict, ← dumps_canon a, ← dumps_canon b, h]

/-- C7 witness: two concrete mappings with the same entries inserted
in different key orders (also in a nested mapping) hash identically. -/
theorem hashDict_canonical_witness :
    hashDict (JValue.obj [("b", .num 2), ("a", .obj [("y", .null), ("x", .bool true)])]) =
      hashDict (JValue.obj [("a", .obj [("x", .bool true), ("y", .null)]), ("b", .num 2)]) :=
  hashDict_canonical _ _ (by rfl)

/-- A `CascadeCore` tree where every live record file fails hash
validation and every backup of it does too (or none exists): the
recomputed hash of `content` never equals the recorded `hash` field. -/
def corruptSetup (st : CoreState) (name : String) : Prop :=
  (∃ file, st.data name = some file ∧ isCorrupt file) ∧
  (∀ p ∈ sortedJsonBackups (st.backups name), isCorrupt p.2)

/-- A memory whose recorded `hash` field (the number `0`, which Python
compares unequal to any digest string) mismatches, with no backups. -/
def c1State : CoreState :=
  { data := fun n =>
      if n = "m" then
        some (.obj [("content", .num 1), ("updated_at", .str "t"), ("hash", .num 0)])
      else none,
    backups := fun _ => [] }

/-- C1 counterexample: with recursion budget 5, `load_memory` on a
memory whose hash mismatches and that has no snapshot calls
`_restore_backup` five times — not exactly once — and then returns
`None` rather than surfacing a `CorruptionError` (no such error exists
in the code). -/
theorem loadMemory_counterexample :
    (loadMemory 5 c1State "m").2.2 = 5 ∧ (loadMemory 5 c1State "m").2.1 = none :=
  ⟨rfl, rfl⟩

/-- C1 amended: on a hash mismatch, `load_memory` calls
`_restore_backup` (ignoring its result) and retries recursively with
no bound. When the mismatch persists — the latest snapshot is itself
corrupt, or no snapshot exists — every retry restores again, so the
number of restore attempts equals the whole recursion budget, and the
final result is `None` (the `except` clause catching the
`RecursionError`), not a `CorruptionError`. -/
theorem loadMemory_persistent_corruption (fuel : Nat) (st : CoreState) (name : String)
    (h : corruptSetup st name) :
    (loadMemory fuel st name).2 = (none, fuel) := by
  induction fuel generalizing st with
  | zero => rfl
  | succ n ih =>
    obtain ⟨⟨file, hdata, content, hv, hc, hh, hne⟩, hbk⟩ := h
    simp only [loadMemory, hdata, hc, hh, hne, Bool.false_eq_true, if_false]
    rcases hlast : (sortedJsonBackups (st.backups name)).getLast? with _ | ⟨ts, bfile⟩
    · rw [show (restoreBackup st name).1 = st by simp [restoreBackup, hlast]]
      simp [ih st ⟨⟨file, hdata, content, hv, hc, hh, hne⟩, hbk⟩]
    · have hmem : (ts, bfile) ∈ sortedJsonBackups (st.backups name) := by
        obtain ⟨hne2, heq⟩ :=
          List.mem_getLast?_eq_getLast (Option.mem_def.mpr hlast)
        exact heq ▸ List.getLast_mem hne2
      have hbc : isCorrupt bfile := hbk _ hmem
      rw [show (restoreBackup st name).1 =
            { st with data := fun m => if m = name then some bfile else st.data m } by
          simp [restoreBackup, hlast]]
      have hc1 : corruptSetup
          { data := fun m => if m = name then some bfile else st.data m,
            backups := st.backups } name :=
        ⟨⟨bfile, if_pos rfl, hbc⟩, hbk⟩
      simp [ih _ hc1]

/-- C1 witness for the amended theorem, at recursion budget 3. -/
theorem loadMemory_persistent_corruption_witness :
    (loadMemory 3 c1State "m").2 = (none, 3) :=
  loadMemory_persistent_corruption 3 c1State "m"
    ⟨⟨JValue.obj [("content", .num 1), ("updated_at", .str "t"), ("hash", .num 0)],
      rfl, .num 1, .num 0, rfl, rfl, rfl⟩,
     by intro p hp; simp [sortedJsonBackups, c1State] at hp⟩

/-- A record file that exists but lacks its `hash` field. -/
def c8State : CoreState :=
  { data := fun n =>
      if n = "m" then some (.obj [("content", .num 1), ("updated_at", .str "t")])
      else none,
    backups := fun _ => [] }

/-- C8 counterexample: the record file for `"m"` exists but is
malformed (no `hash` key), so reading it fails internally with a
`KeyError`; `load_memory` swallows the exception and returns `None` —
exactly the value it returns for the absent name `"missing"` — so the
internal failure is indistinguishable from "no data". -/
theorem loadMemory_swallows_counterexample :
    (c8State.data "m").isSome = true ∧
      (loadMemory 9 c8State "m").2.1 = none ∧
      (loadMemory 9 c8State "missing").2.1 = none :=
  ⟨rfl, rfl, rfl⟩

/-- C8 amended: `load_memory` catches every internal error and returns
the plain "no data" value: whenever the stored file lacks its
`content` or `hash` field, the result is `None`, the same value
returned when no file exists at all (and `save_memory` likewise maps
internal failures to a bare `False`). -/
theorem loadMemory_malformed_none (fuel : Nat) (st : CoreState) (name : String)
    (file : JValue) (hdata : st.data name = some file)
    (hmal : getField file "content" = none ∨ getField file "hash" = none) :
    (loadMemory fuel st name).2.1 = none := by
  cases fuel with
  | zero => rfl
  | succ n =>
    rcases hmal with hm | hm
    · simp [loadMemory, hdata, hm]
    · cases hc : getField file "content" with
      | none => simp [loadMemory, hdata, hc]
      | some c => simp [loadMemory, hdata, hc, hm]

/-- C8 witness for the amended theorem. -/
theorem loadMemory_malformed_none_witness :
    (loadMemory 9 c8State "m").2.1 = none :=
  loadMemory_malformed_none 9 c8State "m"
    (JValue.obj [("content", .num 1), ("updated_at", .str "t")]) rfl (Or.inr rfl)

/-! ### Index dictionary lemmas -/

theorem lookupIndex_cons (p : String × IndexEntry) (l : List (String × IndexEntry))
    (id : String) :
    lookupIndex (p :: l) id = if p.1 == id then some p.2 else lookupIndex l id := by
  by_cases h : p.1 == id <;> simp [lookupIndex, List.find?_cons, h]

theorem setIndex_cons_ne (p : String × IndexEntry) (rest : List (String × IndexEntry))
    (id : String) (e : IndexEntry) (hp : (p.1 == id) = false) :
    setIndex (p :: rest) id e = p :: setIndex rest id e := by
  have hfind : ((p :: rest).find? (fun q => q.1 == id)) =
      rest.find? (fun q => q.1 == id) := by
    simp [List.find?_cons, hp]
  unfold setIndex
  rw [hfind, List.map_cons, if_neg (by simp [hp] : ¬(p.1 == id) = true),
    List.cons_append]
  split <;> rfl

theorem lookupIndex_map_set (rest : List (String × IndexEntry)) (id id' : String)
    (e : IndexEntry) (hne : id' ≠ id) :
    lookupIndex (rest.map (fun q => if q.1 == id then (id, e) else q)) id' =
      lookupIndex rest id' := by
  have t1 : (id == id') = false := by simpa using fun h => hne h.symm
  induction rest with
  | nil => rfl
  | cons q tail ih =>
    rw [List.map_cons]
    by_cases hq : q.1 == id
    · have h1 : q.1 = id := by simpa using hq
      have t2 : (q.1 == id') = false := by simpa [h1] using fun h => hne h.symm
      rw [if_pos hq, lookupIndex_cons, lookupIndex_cons, ih, t1, t2]
      simp
    · rw [if_neg (by simp [hq] : ¬(q.1 == id) = true), lookupIndex_cons,
        lookupIndex_cons, ih]

theorem lookupIndex_setIndex_self (l : List (String × IndexEntry)) (id : String)
    (e : IndexEntry) : lookupIndex (setIndex l id e) id = some e := by
  induction l with
  | nil => simp [setIndex, lookupIndex]
  | cons p rest ih =>
    by_cases hp : p.1 == id
    · have hfind : ((p :: rest).find? (fun q => q.1 == id)).isSome = true := by
        simp [List.find?_cons, hp]
      unfold setIndex
      rw [hfind, if_pos rfl, List.map_cons, if_pos hp, lookupIndex_cons,
        if_pos (by simp : ((id, e).1 == id) = true)]
    · rw [setIndex_cons_ne p rest id e (by simpa using hp), lookupIndex_cons, if_neg (by simp [hp]), ih]

theorem lookupIndex_setIndex_ne (l : List (String × IndexEntry)) (id id' : String)
    (e : IndexEntry) (hne : id' ≠ id) :
    lookupIndex (setIndex l id e) id' = lookupIndex l id' := by
  induction l with
  | nil =>
    simp [setIndex, lookupIndex, List.find?_cons,
      show (id == id') = false by simpa using fun h => hne h.symm]
  | cons p rest ih =>
    by_cases hp : p.1 == id
    · have hfind : ((p :: rest).find? (fun q => q.1 == id)).isSome = true := by
        simp [List.find?_cons, hp]
      have hmap := lookupIndex_map_set (p :: rest) id id' e hne
      unfold setIndex
      rw [hfind, if_pos rfl]
      exact hmap
    · rw [setIndex_cons_ne p rest id e (by simpa using hp), lookupIndex_cons, lookupIndex_cons, ih]

/-- `n` sequential `update_memory` calls on the same id (the
timestamps and replacement contents of each call are immaterial). -/
def iterateUpdates (id : String) (cs : Nat → JValue) (now : String) :
    Nat → MemState → MemState
  | 0, st => st
  | n + 1, st => (updateMemory (iterateUpdates id cs now n st) id (cs n) none now).1

theorem iterateUpdates_version (id : String) (cs : Nat → JValue) (now : String) :
    ∀ (n : Nat) (st : MemState) (entry : IndexEntry) (m : Memory),
    lookupIndex st.memories id = some entry → st.files entry.path = some m →
    ∃ e' m', lookupIndex (iterateUpdates id cs now n st).memories id = some e' ∧
      (iterateUpdates id cs now n st).files e'.path = some m' ∧
      m'.version = m.version + n := by
  intro n
  induction n with
  | zero => intro st entry m he hf; exact ⟨entry, m, he, hf, rfl⟩
  | succ k ih =>
    intro st entry m he hf
    obtain ⟨e', m', he', hf', hv'⟩ := ih st entry m he hf
    refine ⟨{ e' with version := m'.version + 1, last_updated := now },
      { m' with content := cs k, updated_at := now, version := m'.version + 1,
                critique := m'.critique }, ?_, ?_, ?_⟩
    · simp only [iterateUpdates, updateMemory, he', hf']
      exact lookupIndex_setIndex_self _ _ _
    · simp only [iterateUpdates, updateMemory, he', hf']
      exact if_pos trivial
    · show m'.version + 1 = m.version + (k + 1)
      omega

/-- C2: a successful `update_memory` call on a record stored at
version `v` writes it back at version exactly `v + 1` with a
refreshed `updated_at` (mirrored into the index entry); hence `n`
sequential updates of a record created at version 1 leave it at
version `n + 1`; and updating an id absent from the index fails with
the not-found error, leaving the state unchanged. -/
theorem updateMemory_version (st : MemState) (id : String) (c : JValue)
    (cr : Option Critique) (cs : Nat → JValue) (now : String) :
    (∀ entry m, lookupIndex st.memories id = some entry →
      st.files entry.path = some m →
      (updateMemory st id c cr now).2 = .ok () ∧
      ∃ e' m', lookupIndex (updateMemory st id c cr now).1.memories id = some e' ∧
        (updateMemory st id c cr now).1.files e'.path = some m' ∧
        m'.version = m.version + 1 ∧ m'.updated_at = now ∧
        e'.version = m.version + 1 ∧ e'.last_updated = now) ∧
    (∀ entry m n, lookupIndex st.memories id = some entry →
      st.files entry.path = some m → m.version = 1 →
      ∃ e' m', lookupIndex (iterateUpdates id cs now n st).memories id = some e' ∧
        (iterateUpdates id cs now n st).files e'.path = some m' ∧
        m'.version = n + 1) ∧
    (lookupIndex st.memories id = none →
      updateMemory st id c cr now = (st, .error (.notFound id))) := by
  refine ⟨?_, ?_, ?_⟩
  · intro entry m he hf
    refine ⟨by simp [updateMemory, he, hf], ?_⟩
    refine ⟨{ entry with version := m.version + 1, last_updated := now },
      { m with content := c, updated_at := now, version := m.version + 1,
               critique := match cr with | some c => c | none => m.critique },
      ?_, ?_, rfl, rfl, rfl, rfl⟩
    · simp only [updateMemory, he, hf]
      exact lookupIndex_setIndex_self _ _ _
    · simp only [updateMemory, he, hf]
      simp
  · intro entry m n he hf hv
    obtain ⟨e', m', he', hf', hv'⟩ := iterateUpdates_version id cs now n st entry m he hf
    exact ⟨e', m', he', hf', by omega⟩
  · intro he
    simp [updateMemory, he]

/-- A store holding one record, `"x"`, at version 1. -/
def memSt : MemState :=
  { memories :=
      [("x", { path := "data/memories/x.json", type := "t", version := 1,
               last_updated := "T0" })],
    lastCleanup := none,
    files := fun p =>
      if p = "data/memories/x.json" then
        some { id := "x", type := "t", content := .num 0, created_at := "T0",
               updated_at := "T0", version := 1, critique := defaultCritique,
               expires_at := none }
      else none }

/-- C2 witness: updating `"x"` succeeds; two sequential updates bring
it from version 1 to version 3; updating the absent id `"y"` fails
with the not-found error and leaves the state untouched. -/
theorem updateMemory_version_witness :
    (updateMemory memSt "x" (.num 1) none "T1").2 = .ok () ∧
    (∃ e' m',
      lookupIndex (iterateUpdates "x" (fun _ => .num 7) "T1" 2 memSt).memories "x" =
        some e' ∧
      (iterateUpdates "x" (fun _ => .num 7) "T1" 2 memSt).files e'.path = some m' ∧
      m'.version = 2 + 1) ∧
    updateMemory memSt "y" (.num 1) none "T1" = (memSt, .error (.notFound "y")) :=
  ⟨((updateMemory_version memSt "x" (.num 1) none (fun _ => .num 7) "T1").1
      _ _ rfl rfl).1,
   (updateMemory_version memSt "x" (.num 1) none (fun _ => .num 7) "T1").2.1
      _ _ 2 rfl rfl rfl,
   (updateMemory_version memSt "y" (.num 1) none (fun _ => .num 7) "T1").2.2 rfl⟩

/-- C5: reading back the id returned by `create_memory` yields exactly
the record built from the request: the caller's type, content and
critique (the default critique when none is given), the fresh id, the
creation timestamp as both `created_at` and `updated_at`, version
fixed to 1 and no expiry — `get_memory` returns the stored file as-is,
with no repair. -/
theorem getMemory_createMemory (st : MemState) (mtype : String) (content : JValue)
    (critique : Option Critique) (freshId now : String) :
    (createMemory st mtype content critique freshId now).2 = freshId ∧
    getMemory (createMemory st mtype content critique freshId now).1 freshId =
      .ok { id := freshId, type := mtype, content := content, created_at := now,
            updated_at := now, version := 1,
            critique := critique.getD defaultCritique, expires_at := none } := by
  refine ⟨rfl, ?_⟩
  simp only [getMemory, createMemory, lookupIndex_setIndex_self]
  simp

/-- C10: `update_memory` with the critique argument omitted keeps the
stored record's `critique` (and its `id`, `type`, `created_at` and
`expires_at`) exactly as before — only `content`, `updated_at`,
`version` and the record's own index entry change: every other path's
file, every other id's index entry, and the stats are untouched. -/
theorem updateMemory_frame (st : MemState) (id : String) (c : JValue) (now : String)
    (entry : IndexEntry) (m : Memory)
    (he : lookupIndex st.memories id = some entry)
    (hf : st.files entry.path = some m) :
    (updateMemory st id c none now).2 = .ok () ∧
    (updateMemory st id c none now).1.files entry.path =
      some { m with content := c, updated_at := now, version := m.version + 1 } ∧
    (∀ p, p ≠ entry.path → (updateMemory st id c none now).1.files p = st.files p) ∧
    lookupIndex (updateMemory st id c none now).1.memories id =
      some { entry with version := m.version + 1, last_updated := now } ∧
    (∀ id', id' ≠ id →
      lookupIndex (updateMemory st id c none now).1.memories id' =
        lookupIndex st.memories id') ∧
    (updateMemory st id c none now).1.lastCleanup = st.lastCleanup := by
  refine ⟨by simp [updateMemory, he, hf], ?_, ?_, ?_, ?_, ?_⟩
  · simp only [updateMemory, he, hf]
    simp
  · intro p hp
    simp only [updateMemory, he, hf]
    simp [hp]
  · simp only [updateMemory, he, hf]
    exact lookupIndex_setIndex_self _ _ _
  · intro id' hid
    simp only [updateMemory, he, hf]
    exact lookupIndex_setIndex_ne _ _ _ _ hid
  · simp [updateMemory, he, hf]

/-- C10 witness: updating `"x"` without a critique leaves its critique
and creation time as stored, while content, `updated_at` and version
change. -/
theorem updateMemory_frame_witness :
    (updateMemory memSt "x" (.num 5) none "T2").1.files "data/memories/x.json" =
      some { id := "x", type := "t", content := .num 5, created_at := "T0",
             updated_at := "T2", version := 2, critique := defaultCritique,
             expires_at := none } ∧
    (updateMemory memSt "x" (.num 5) none "T2").1.files "other" = memSt.files "other" :=
  ⟨(updateMemory_frame memSt "x" (.num 5) "T2" _ _ rfl rfl).2.1,
   (updateMemory_frame memSt "x" (.num 5) "T2" _ _ rfl rfl).2.2.1 "other" (by decide)⟩

/-! ### `cleanup_expired` analysis -/

theorem removeIndex_foldl (ids : List String) :
    ∀ (mem : List (String × IndexEntry)),
    ids.foldl removeIndex mem = mem.filter (fun p => !(ids.contains p.1)) := by
  induction ids with
  | nil =>
    intro mem
    rw [List.foldl_nil]
    symm
    exact List.filter_eq_self.mpr (fun _ _ => rfl)
  | cons a rest ih =>
    intro mem
    rw [List.foldl_cons, ih, removeIndex, List.filter_filter]
    apply List.filter_congr
    intro p _
    by_cases hpa : p.1 = a <;> simp [hpa, bne]

theorem lookupIndex_mem (l : List (String × IndexEntry)) (id : String) (e : IndexEntry)
    (h : lookupIndex l id = some e) : (id, e) ∈ l := by
  unfold lookupIndex at h
  cases hf : l.find? (fun p => p.1 == id) with
  | none => rw [hf] at h; exact Option.noConfusion h
  | some x =>
    rw [hf] at h
    simp only [Option.map_some'] at h
    have hx := List.mem_of_find?_eq_some hf
    have hpx := List.find?_some hf
    have h1 : x.1 = id := by simpa using hpx
    have h2 : x.2 = e := by simpa using h
    rw [← h1, ← h2]
    exact hx

theorem lookupIndex_of_mem_nodup (l : List (String × IndexEntry))
    (hnd : (l.map Prod.fst).Nodup) (p : String × IndexEntry) (hp : p ∈ l) :
    lookupIndex l p.1 = some p.2 := by
  induction l with
  | nil => simp at hp
  | cons q rest ih =>
    rw [List.map_cons, List.nodup_cons] at hnd
    rcases List.mem_cons.mp hp with h | h
    · subst h
      simp [lookupIndex_cons]
    · rw [lookupIndex_cons]
      have hq : (q.1 == p.1) = false := by
        by_contra hc
        have : q.1 = p.1 := by
          cases hb : q.1 == p.1
          · exact absurd hb hc
          · simpa using hb
        exact hnd.1 (this ▸ List.mem_map_of_mem Prod.fst h)
      rw [hq]
      exact ih hnd.2 h

theorem filter_map_fst {β : Type} (l : List (String × β)) (q : String → Bool) :
    (l.map Prod.fst).filter q = (l.filter (fun p => q p.1)).map Prod.fst := by
  induction l with
  | nil => rfl
  | cons p rest ih =>
    by_cases hp : q p.1 <;> simp [List.filter_cons, hp, ih]

/-- The loop of `cleanup_expired`, specified: when every processed id
resolves in the index and its record file is present (at a path not
shared with any other processed id), the loop completes, removes
exactly the expired records' files and index entries, and counts
them. -/
theorem cleanupLoop_spec (orig : List (String × IndexEntry)) (now : String)
    (entryOf : String → IndexEntry) (memOf : String → Memory) :
    ∀ (ids : List String) (files : String → Option Memory)
      (mem : List (String × IndexEntry)) (n : Nat),
    (∀ id ∈ ids, lookupIndex orig id = some (entryOf id)) →
    (∀ id ∈ ids, files (entryOf id).path = some (memOf id)) →
    (ids.map (fun id => (entryOf id).path)).Nodup →
    ∃ files' mem' cnt,
      cleanupLoop orig now ids files mem n = (files', mem', cnt, true) ∧
      mem' = (ids.filter (fun id => expiredP (memOf id) now)).foldl removeIndex mem ∧
      cnt = n + (ids.filter (fun id => expiredP (memOf id) now)).length ∧
      ∀ p, files' p =
        if ((ids.filter (fun id => expiredP (memOf id) now)).map
            (fun id => (entryOf id).path)).contains p then none else files p := by
  intro ids
  induction ids with
  | nil =>
    intro files mem n _ _ _
    exact ⟨files, mem, n, rfl, rfl, by simp, by simp⟩
  | cons id rest ih =>
    intro files mem n hlk hfl hnd
    have hid := hlk id (List.mem_cons_self id rest)
    have hfid := hfl id (List.mem_cons_self id rest)
    rw [List.map_cons, List.nodup_cons] at hnd
    have hrest1 : ∀ i ∈ rest, lookupIndex orig i = some (entryOf i) :=
      fun i hi => hlk i (List.mem_cons_of_mem _ hi)
    by_cases hexp : expiredP (memOf id) now
    · have hrest2 : ∀ i ∈ rest,
          (fun p => if p = (entryOf id).path then none else files p) (entryOf i).path =
            some (memOf i) := by
        intro i hi
        have hne : (entryOf i).path ≠ (entryOf id).path := by
          intro hcontra
          exact hnd.1 (hcontra ▸ List.mem_map_of_mem (fun j => (entryOf j).path) hi)
        simp only [if_neg hne]
        exact hfl i (List.mem_cons_of_mem _ hi)
      obtain ⟨files', mem', cnt, heq, hmem, hcnt, hfiles⟩ :=
        ih (fun p => if p = (entryOf id).path then none else files p)
          (removeIndex mem id) (n + 1) hrest1 hrest2 hnd.2
      refine ⟨files', mem', cnt, ?_, ?_, ?_, ?_⟩
      · simp only [cleanupLoop, hid, hfid, hexp, if_true]
        exact heq
      · rw [hmem, List.filter_cons, if_pos hexp, List.foldl_cons]
      · rw [hcnt, List.filter_cons, if_pos hexp, List.length_cons]
        omega
      · intro p
        rw [hfiles p, List.filter_cons, if_pos hexp, List.map_cons]
        by_cases hmemb :
            ((rest.filter (fun i => expiredP (memOf i) now)).map
              (fun i => (entryOf i).path)).contains p
        · have hcons : ((entryOf id).path ::
              (rest.filter (fun i => expiredP (memOf i) now)).map
                (fun i => (entryOf i).path)).contains p = true := by
            rw [List.contains_cons, hmemb, Bool.or_true]
          rw [if_pos hmemb, if_pos hcons]
        · have hmemb' :
              ((rest.filter (fun i => expiredP (memOf i) now)).map
                (fun i => (entryOf i).path)).contains p = false := by
            simpa using hmemb
          have hcons : ((entryOf id).path ::
              (rest.filter (fun i => expiredP (memOf i) now)).map
                (fun i => (entryOf i).path)).contains p = (p == (entryOf id).path) := by
            rw [List.contains_cons, hmemb', Bool.or_false]
          rw [if_neg (by rw [hmemb']; simp), hcons]
          by_cases hpp : p = (entryOf id).path
          · rw [if_pos hpp, if_pos (by simp [hpp])]
          · rw [if_neg hpp, if_neg (by simp [hpp])]
    · obtain ⟨files', mem', cnt, heq, hmem, hcnt, hfiles⟩ :=
        ih files mem n hrest1
          (fun i hi => hfl i (List.mem_cons_of_mem _ hi)) hnd.2
      refine ⟨files', mem', cnt, ?_, ?_, ?_, ?_⟩
      · simp only [cleanupLoop, hid, hfid, hexp, if_false]
        exact heq
      · rw [hmem, List.filter_cons, if_neg hexp]
      · rw [hcnt, List.filter_cons, if_neg hexp]
      · intro p
        rw [hfiles p, List.filter_cons, if_neg hexp]

theorem contains_iff_mem_str (l : List String) (a : String) :
    l.contains a = true ↔ a ∈ l := by
  induction l with
  | nil => simp
  | cons b rest ih => simp [List.contains_cons, ih]

/-- C3 amended: for a well-formed store (distinct ids, distinct record
paths, every index entry backed by a record file), `cleanup_expired`
removes — record file plus index entry — all and only the records
whose `expires_at` is strictly before `now` (the code compares with
`<`, so a record expiring exactly at `now` survives), returns their
count, and leaves no dangling index entry: every remaining id still
maps to its record file. -/
theorem cleanupExpired_spec (st : MemState) (now : String) (memOf : String → Memory)
    (hnodup : (st.memories.map Prod.fst).Nodup)
    (hpaths : (st.memories.map (fun p => p.2.path)).Nodup)
    (hfilesAll : ∀ p ∈ st.memories, st.files p.2.path = some (memOf p.1)) :
    (cleanupExpired st now).2 =
      .ok (st.memories.filter (fun p => expiredP (memOf p.1) now)).length ∧
    (cleanupExpired st now).1.memories =
      st.memories.filter (fun p => !expiredP (memOf p.1) now) ∧
    (∀ p ∈ st.memories.filter (fun p => expiredP (memOf p.1) now),
      (cleanupExpired st now).1.files p.2.path = none) ∧
    (∀ p ∈ (cleanupExpired st now).1.memories,
      (cleanupExpired st now).1.files p.2.path = some (memOf p.1)) := by
  have hdef : IndexEntry := ⟨"", "", 0, ""⟩
  set entryOf : String → IndexEntry :=
    fun id => (lookupIndex st.memories id).getD ⟨"", "", 0, ""⟩ with hentryOf
  have hEO : ∀ p ∈ st.memories, entryOf p.1 = p.2 := by
    intro p hp
    rw [hentryOf]
    simp [lookupIndex_of_mem_nodup st.memories hnodup p hp]
  have h1 : ∀ id ∈ st.memories.map Prod.fst,
      lookupIndex st.memories id = some (entryOf id) := by
    intro id hid
    obtain ⟨p, hp, hp1⟩ := List.mem_map.mp hid
    have := lookupIndex_of_mem_nodup st.memories hnodup p hp
    rw [← hp1, this, hentryOf]
    simp [← hp1, this]
  have h2 : ∀ id ∈ st.memories.map Prod.fst,
      st.files (entryOf id).path = some (memOf id) := by
    intro id hid
    obtain ⟨p, hp, hp1⟩ := List.mem_map.mp hid
    rw [← hp1, hEO p hp]
    exact hfilesAll p hp
  have h3 : ((st.memories.map Prod.fst).map (fun id => (entryOf id).path)).Nodup := by
    rw [List.map_map]
    have : st.memories.map ((fun id => (entryOf id).path) ∘ Prod.fst) =
        st.memories.map (fun p => p.2.path) :=
      List.map_congr_left (fun p hp => by simp [Function.comp, hEO p hp])
    rw [this]
    exact hpaths
  obtain ⟨files', mem', cnt, heq, hmem, hcnt, hfiles⟩ :=
    cleanupLoop_spec st.memories now entryOf memOf (st.memories.map Prod.fst)
      st.files st.memories 0 h1 h2 h3
  -- filtered-id/pair conversions
  have hfm : (st.memories.map Prod.fst).filter (fun id => expiredP (memOf id) now) =
      (st.memories.filter (fun p => expiredP (memOf p.1) now)).map Prod.fst :=
    filter_map_fst st.memories (fun id => expiredP (memOf id) now)
  have hcnt' : cnt = (st.memories.filter (fun p => expiredP (memOf p.1) now)).length := by
    rw [hcnt, hfm, List.length_map]
    omega
  have hmem' : mem' = st.memories.filter (fun p => !expiredP (memOf p.1) now) := by
    rw [hmem, removeIndex_foldl]
    apply List.filter_congr
    intro p hp
    rw [hfm]
    by_cases hexp : expiredP (memOf p.1) now
    · have : p.1 ∈ (st.memories.filter
          (fun p => expiredP (memOf p.1) now)).map Prod.fst :=
        List.mem_map_of_mem Prod.fst (List.mem_filter.mpr ⟨hp, hexp⟩)
      rw [(contains_iff_mem_str _ _).mpr this, hexp]
    · have hnotin : p.1 ∉ (st.memories.filter
          (fun p => expiredP (memOf p.1) now)).map Prod.fst := by
        intro hin
        obtain ⟨q, hq, hq1⟩ := List.mem_map.mp hin
        have hqf := List.mem_filter.mp hq
        rw [hq1] at hqf
        exact hexp hqf.2
      have hcontains : ((st.memories.filter
          (fun p => expiredP (memOf p.1) now)).map Prod.fst).contains p.1 = false := by
        rw [← Bool.not_eq_true]
        intro hc
        exact hnotin ((contains_iff_mem_str _ _).mp hc)
      rw [hcontains]
      simp [hexp]
  have hpathsEq : ((st.memories.map Prod.fst).filter
        (fun id => expiredP (memOf id) now)).map (fun id => (entryOf id).path) =
      (st.memories.filter (fun p => expiredP (memOf p.1) now)).map
        (fun p => p.2.path) := by
    rw [hfm, List.map_map]
    exact List.map_congr_left (fun p hp => by
      simp [Function.comp, hEO p (List.mem_filter.mp hp).1])
  -- generic file facts
  have F2 : ∀ p ∈ st.memories.filter (fun p => expiredP (memOf p.1) now),
      files' p.2.path = none := by
    intro p hp
    rw [hfiles p.2.path, hpathsEq]
    rw [if_pos ((contains_iff_mem_str _ _).mpr
      (List.mem_map_of_mem (fun q => q.2.path) hp))]
  have F1 : ∀ p ∈ st.memories, expiredP (memOf p.1) now = false →
      files' p.2.path = some (memOf p.1) := by
    intro p hp hexp
    rw [hfiles p.2.path, hpathsEq]
    have hnotin : p.2.path ∉ (st.memories.filter
        (fun p => expiredP (memOf p.1) now)).map (fun p => p.2.path) := by
      intro hin
      obtain ⟨q, hq, hq1⟩ := List.mem_map.mp hin
      have hqf := List.mem_filter.mp hq
      have : q = p := List.inj_on_of_nodup_map hpaths hqf.1 hp hq1
      rw [this] at hqf
      rw [hqf.2] at hexp
      exact Bool.noConfusion hexp
    rw [if_neg (by
      intro hc
      exact hnotin ((contains_iff_mem_str _ _).mp hc))]
    exact hfilesAll p hp
  have hC : cleanupExpired st now =
      if cnt > 0 then
        ({ memories := mem', lastCleanup := some now, files := files' }, .ok cnt)
      else ({ st with files := files' }, .ok cnt) := by
    simp only [cleanupExpired, heq]
  by_cases hpos : cnt > 0
  · rw [hC, if_pos hpos]
    refine ⟨by simp [hcnt'], by simp [hmem'], ?_, ?_⟩
    · intro p hp
      exact F2 p hp
    · intro p hp
      simp only at hp
      rw [hmem'] at hp
      have hpf := List.mem_filter.mp hp
      exact F1 p hpf.1 (by simpa using hpf.2)
  · rw [hC, if_neg hpos]
    have hzero : cnt = 0 := by omega
    have hexpnil : st.memories.filter (fun p => expiredP (memOf p.1) now) = [] :=
      List.length_eq_zero.mp (by rw [← hcnt', hzero])
    have hallfalse : ∀ p ∈ st.memories, expiredP (memOf p.1) now = false := by
      intro p hp
      by_contra hc
      have : p ∈ st.memories.filter (fun p => expiredP (memOf p.1) now) :=
        List.mem_filter.mpr ⟨hp, by simpa using hc⟩
      rw [hexpnil] at this
      exact absurd this (List.not_mem_nil p)
    refine ⟨by simp [hcnt'], ?_, ?_, ?_⟩
    · show st.memories = st.memories.filter (fun p => !expiredP (memOf p.1) now)
      symm
      exact List.filter_eq_self.mpr (fun p hp => by simp [hallfalse p hp])
    · intro p hp
      rw [hexpnil] at hp
      exact absurd hp (List.not_mem_nil p)
    · intro p hp
      exact F1 p hp (hallfalse p hp)

/-- A store with one record whose `expires_at` equals the cleanup
time. -/
def c3St : MemState :=
  { memories := [("x", { path := "p", type := "t", version := 1, last_updated := "d" })],
    lastCleanup := none,
    files := fun p =>
      if p = "p" then
        some { id := "x", type := "t", content := .null, created_at := "c",
               updated_at := "c", version := 1, critique := defaultCritique,
               expires_at := some "d" }
      else none }

/-- C3 counterexample: the stored record's `expires_at` (`"d"`) is at
(hence at-or-before) the current time `now = "d"`, so the claim
requires it to be removed and the count to be 1; but the code's test
is the strict `memory["expires_at"] < now`, so `cleanup_expired`
removes nothing and returns 0, leaving the store unchanged. -/
theorem cleanupExpired_counterexample :
    strLe "d" "d" = true ∧ cleanupExpired c3St "d" = (c3St, .ok 0) :=
  ⟨rfl, rfl⟩

/-- A store with one record expired strictly before `"b"` and one
unexpirable record. -/
def c3WSt : MemState :=
  { memories :=
      [("x", { path := "px", type := "t", version := 1, last_updated := "a" }),
       ("y", { path := "py", type := "t", version := 1, last_updated := "a" })],
    lastCleanup := none,
    files := fun p =>
      if p = "px" then
        some { id := "x", type := "t", content := .null, created_at := "a",
               updated_at := "a", version := 1, critique := defaultCritique,
               expires_at := some "a" }
      else if p = "py" then
        some { id := "y", type := "t", content := .null, created_at := "a",
               updated_at := "a", version := 1, critique := defaultCritique,
               expires_at := none }
      else none }

/-- The record each id of `c3WSt` maps to. -/
def c3WMem : String → Memory := fun id =>
  if id = "x" then
    { id := "x", type := "t", content := .null, created_at := "a",
      updated_at := "a", version := 1, critique := defaultCritique,
      expires_at := some "a" }
  else
    { id := "y", type := "t", content := .null, created_at := "a",
      updated_at := "a", version := 1, critique := defaultCritique,
      expires_at := none }

/-- C3 witness for the amended theorem: of the two records, exactly
the one expiring strictly before `now = "b"` is removed (count 1), the
other remains with its file intact. -/
theorem cleanupExpired_spec_witness :
    (cleanupExpired c3WSt "b").2 =
      .ok (c3WSt.memories.filter (fun p => expiredP (c3WMem p.1) "b")).length ∧
    (cleanupExpired c3WSt "b").1.memories =
      c3WSt.memories.filter (fun p => !expiredP (c3WMem p.1) "b") :=
  ⟨(cleanupExpired_spec c3WSt "b" c3WMem (by decide) (by decide)
      (by
        intro p hp
        rcases List.mem_cons.mp hp with h | hp2
        · subst h; rfl
        · rcases List.mem_cons.mp hp2 with h | hp3
          · subst h; rfl
          · exact absurd hp3 (List.not_mem_nil p))).1,
   (cleanupExpired_spec c3WSt "b" c3WMem (by decide) (by decide)
      (by
        intro p hp
        rcases List.mem_cons.mp hp with h | hp2
        · subst h; rfl
        · rcases List.mem_cons.mp hp2 with h | hp3
          · subst h; rfl
          · exact absurd hp3 (List.not_mem_nil p))).2.1⟩

/-- C6: `safe_to_modify` judges a path safe whenever no safety record
exists for it; judges it unsafe whenever a record exists and either
the current content hash or the current modification time diverges
from the recorded values (either signal alone suffices); and judges it
safe again immediately after `record_file_state` re-captures the
file's current state. -/
theorem safeToModify_spec (st : SafetyState) (p : String) :
    (st.safety (basename p) = none → (safeToModify st p).1 = true) ∧
    (∀ fi r, st.fs p = some fi → st.safety (basename p) = some r →
      (r.hash ≠ sha256hex fi.bytes ∨ r.mtime ≠ fi.mtime) →
      (safeToModify st p).1 = false) ∧
    (∀ now, (safeToModify (recordFileState st p now) p).1 = true) := by
  refine ⟨?_, ?_, ?_⟩
  · intro h
    cases hfs : st.fs p with
    | none => simp [safeToModify, hfs]
    | some fi => simp [safeToModify, hfs, h]
  · intro fi r hfs hr hdiv
    simp only [safeToModify, hfs, hr]
    by_cases hh : r.hash ≠ sha256hex fi.bytes
    · rw [if_pos hh]
    · rcases hdiv with hd | hd
      · exact absurd hd hh
      · rw [if_neg hh, if_pos hd]
  · intro now
    cases hfs : st.fs p with
    | none => simp [recordFileState, safeToModify, hfs]
    | some fi => simp [recordFileState, safeToModify, hfs]

/-- A filesystem with one file at `"a/f"`. -/
def c6Fs : String → Option FileInfo := fun q => if q = "a/f" then some ⟨[1], 2⟩ else none

/-- A safety record for basename `"f"` whose recorded mtime (3)
differs from the file's current mtime (2). -/
def c6Safety : String → Option SafetyRecord :=
  fun b => if b = "f" then some ⟨"a/f", sha256hex [1], 3, "t"⟩ else none

/-- C6 witness: untracked path is safe; a recorded-but-diverging
(mtime changed) path is unsafe; after re-recording, safe again. -/
theorem safeToModify_spec_witness :
    (safeToModify ⟨c6Fs, fun _ => none⟩ "a/f").1 = true ∧
    (safeToModify ⟨c6Fs, c6Safety⟩ "a/f").1 = false ∧
    (safeToModify (recordFileState ⟨c6Fs, fun _ => none⟩ "a/f" "t") "a/f").1 = true :=
  ⟨(safeToModify_spec ⟨c6Fs, fun _ => none⟩ "a/f").1 rfl,
   (safeToModify_spec ⟨c6Fs, c6Safety⟩ "a/f").2.1 ⟨[1], 2⟩
     ⟨"a/f", sha256hex [1], 3, "t"⟩ rfl rfl (Or.inr (by decide)),
   (safeToModify_spec ⟨c6Fs, fun _ => none⟩ "a/f").2.2 "t"⟩

/-- C9: on a listing with distinct entry names, `cleanup_old_backups`
with retention `keepLast` (i) when every deletion succeeds, leaves
exactly the `min(keepLast, m)` most recent backup directories — the
first `keepLast` of the names sorted newest-first — and (ii) deletes
every prunable backup whose own deletion succeeds regardless of which
other deletions fail. -/
theorem cleanupOldBackups_spec (listing : List (String × Bool)) (keepLast : Nat)
    (removeFails : String → Bool)
    (hnodup : (listing.map Prod.fst).Nodup) :
    ((∀ s, removeFails s = false) →
      (((cleanupOldBackups listing keepLast removeFails).filter isBackupDir).map
          Prod.fst).Perm ((sortedBackups listing).take keepLast) ∧
      (((cleanupOldBackups listing keepLast removeFails).filter isBackupDir).map
          Prod.fst).length = min keepLast (backupNames listing).length) ∧
    (∀ name, name ∈ (sortedBackups listing).drop keepLast →
      removeFails name = false →
      name ∉ (cleanupOldBackups listing keepLast removeFails).map Prod.fst) := by
  have hBnodup : (backupNames listing).Nodup :=
    hnodup.sublist ((List.filter_sublist listing).map Prod.fst)
  have hperm : (sortedBackups listing).Perm (backupNames listing) :=
    List.perm_insertionSort _ _
  have hSnodup : (sortedBackups listing).Nodup := hperm.nodup_iff.mpr hBnodup
  have hsplit : (sortedBackups listing).take keepLast ++
      (sortedBackups listing).drop keepLast = sortedBackups listing :=
    List.take_append_drop _ _
  have hdisj : ∀ x ∈ (sortedBackups listing).take keepLast,
      x ∉ (sortedBackups listing).drop keepLast := by
    intro x hx
    have := hsplit ▸ hSnodup
    exact (List.nodup_append.mp this).2.2 hx
  constructor
  · intro hnofail
    have hres : cleanupOldBackups listing keepLast removeFails =
        listing.filter
          (fun p => !(((sortedBackups listing).drop keepLast).contains p.1)) := by
      unfold cleanupOldBackups
      apply List.filter_congr
      intro p _
      rw [hnofail p.1]
      simp
    have hR : ((cleanupOldBackups listing keepLast removeFails).filter
        isBackupDir).map Prod.fst =
        (backupNames listing).filter
          (fun s => !(((sortedBackups listing).drop keepLast).contains s)) := by
      rw [hres, List.filter_comm, backupNames]
      exact (filter_map_fst (listing.filter isBackupDir)
        (fun s => !(((sortedBackups listing).drop keepLast).contains s))).symm
    have hSfilter : (sortedBackups listing).filter
        (fun s => !(((sortedBackups listing).drop keepLast).contains s)) =
        (sortedBackups listing).take keepLast := by
      have hsw : (sortedBackups listing).filter
          (fun s => !(((sortedBackups listing).drop keepLast).contains s)) =
          ((sortedBackups listing).take keepLast ++
            (sortedBackups listing).drop keepLast).filter
            (fun s => !(((sortedBackups listing).drop keepLast).contains s)) := by
        rw [hsplit]
      rw [hsw, List.filter_append]
      have h1 : ((sortedBackups listing).take keepLast).filter
          (fun s => !(((sortedBackups listing).drop keepLast).contains s)) =
          (sortedBackups listing).take keepLast := by
        apply List.filter_eq_self.mpr
        intro a ha
        have hmem : a ∉ (sortedBackups listing).drop keepLast := hdisj a ha
        simp [hmem]
      have h2 : ((sortedBackups listing).drop keepLast).filter
          (fun s => !(((sortedBackups listing).drop keepLast).contains s)) = [] := by
        apply List.filter_eq_nil_iff.mpr
        intro a ha
        simp [ha]
      rw [h1, h2, List.append_nil]
    have hfinal : ((cleanupOldBackups listing keepLast removeFails).filter
        isBackupDir).map Prod.fst |>.Perm ((sortedBackups listing).take keepLast) := by
      rw [hR, ← hSfilter]
      exact (hperm.filter _).symm
    refine ⟨hfinal, ?_⟩
    rw [hfinal.length_eq, List.length_take, hperm.length_eq]
  · intro name hdrop hfail hin
    obtain ⟨q, hq, hq1⟩ := List.mem_map.mp hin
    have hqf := List.mem_filter.mp hq
    have : (((sortedBackups listing).drop keepLast).contains q.1 && !removeFails q.1)
        = true := by
      rw [hq1, (contains_iff_mem_str _ _).mpr hdrop, hfail]
      rfl
    rw [this] at hqf
    exact Bool.noConfusion hqf.2

/-- A backup directory listing: five backups and a stray file. -/
def c9Listing : List (String × Bool) :=
  [("cascade_backup_20240105_000000", true), ("manifest.json", false),
   ("cascade_backup_20240101_000000", true), ("cascade_backup_20240104_000000", true),
   ("cascade_backup_20240102_000000", true), ("cascade_backup_20240103_000000", true)]

/-- C9 witness: with `keep_last = 3` on five backups, exactly the
three most recent (by timestamp name) remain; and an old backup whose
deletion succeeds is removed. -/
theorem cleanupOldBackups_spec_witness :
    (((cleanupOldBackups c9Listing 3 (fun _ => false)).filter isBackupDir).map
        Prod.fst).Perm ((sortedBackups c9Listing).take 3) ∧
    (((cleanupOldBackups c9Listing 3 (fun _ => false)).filter isBackupDir).map
        Prod.fst).length = 3 ∧
    "cascade_backup_20240101_000000" ∉
      (cleanupOldBackups c9Listing 3 (fun _ => false)).map Prod.fst :=
  ⟨((cleanupOldBackups_spec c9Listing 3 (fun _ => false) (by decide)).1
      (fun _ => rfl)).1,
   ((cleanupOldBackups_spec c9Listing 3 (fun _ => false) (by decide)).1
      (fun _ => rfl)).2,
   (cleanupOldBackups_spec c9Listing 3 (fun _ => false) (by decide)).2
     "cascade_backup_20240101_000000" (by decide) rfl⟩

end Cascade
